import Mathlib

/-!
Verification of the shipment prediction and calendar-redistribution engine
(`src/calc.py`): the largest-remainder allocator, the per-house shipment
generator, and the Mon/Wed/Sat calendar adjuster.

Modelling conventions:
* Python floats are embedded as rationals (`ℚ`); Python ints as `ℤ`.
* Calendar dates are embedded as proleptic-Gregorian ordinals (`ℤ`), the
  representation CPython's `datetime.date.toordinal` uses (day 1 =
  0001-01-01, a Monday); `date.weekday()` (Mon=0..Sun=6) becomes
  `wd o = (o + 6) % 7` and `date + timedelta(days=k)` becomes `o + k`.
* Raisable calls return `Except String`; a raised exception is `.error`.
-/

/-- CPython `round` on an exact value: round-half-to-even (banker's
rounding), as used by `int(round(area_tsubo * coeff))` in
`predict_single_house`. -/
def pyRound (q : ℚ) : ℤ :=
  let f := ⌊q⌋
  let r := q - f
  if r < 1/2 then f
  else if 1/2 < r then f + 1
  else if 2 ∣ f then f else f + 1

/-- Days in the years before year `y` (CPython `datetime._days_before_year`,
proleptic Gregorian). Only used at concrete dates. -/
def days_before_year (y : ℤ) : ℤ :=
  365 * (y - 1) + (y - 1) / 4 - (y - 1) / 100 + (y - 1) / 400

/-- Proleptic-Gregorian leap-year test (CPython `datetime._is_leap`). -/
def is_leap (y : ℤ) : Bool :=
  y % 4 = 0 && (y % 100 ≠ 0 || y % 400 = 0)

/-- Days in year `y` before month `m` (CPython `datetime._days_before_month`). -/
def days_before_month (y : ℤ) (m : ℕ) : ℤ :=
  (match m with
   | 1 => 0 | 2 => 31 | 3 => 59 | 4 => 90 | 5 => 120 | 6 => 151
   | 7 => 181 | 8 => 212 | 9 => 243 | 10 => 273 | 11 => 304 | 12 => 334
   | _ => 0)
  + (if 2 < m ∧ is_leap y then 1 else 0)

/-- CPython `datetime.date(y, m, d).toordinal()`: the proleptic-Gregorian
ordinal of a calendar date (0001-01-01 is ordinal 1). -/
def toordinal (y : ℤ) (m : ℕ) (d : ℤ) : ℤ :=
  days_before_year y + days_before_month y m + d

/-- CPython `date.weekday()` on an ordinal: Monday = 0 .. Sunday = 6
(ordinal 1, 0001-01-01, is a Monday). -/
def wd (o : ℤ) : ℤ := (o + 6) % 7

/-- The mutation `int_parts[index] += 1` of `largest_remainder_method`:
add one at position `i`, unchanged when `i` is out of range. -/
def addOneAt : List ℤ → ℕ → List ℤ
  | [], _ => []
  | x :: xs, 0 => (x + 1) :: xs
  | x :: xs, n + 1 => x :: addOneAt xs n

/-- The order produced by Python's
`sorted(enumerate(remainders), key=lambda x: x[1], reverse=True)`:
remainder descending, and — since Python's sort is stable and `enumerate`
lists indices in ascending order — ties broken by original index
ascending.  On pairs with distinct first components this is a linear
order, so any sort realising it agrees with Python's stable sort. -/
def remOrder (a b : ℕ × ℚ) : Prop :=
  b.2 < a.2 ∨ (a.2 = b.2 ∧ a.1 ≤ b.1)

instance : DecidableRel remOrder := fun a b => by
  unfold remOrder; infer_instance

instance : IsTotal (ℕ × ℚ) remOrder where
  total a b := by
    rcases lt_trichotomy a.2 b.2 with h | h | h
    · exact Or.inr (Or.inl h)
    · rcases Nat.le_total a.1 b.1 with h' | h'
      · exact Or.inl (Or.inr ⟨h, h'⟩)
      · exact Or.inr (Or.inr ⟨h.symm, h'⟩)
    · exact Or.inl (Or.inl h)

instance : IsTrans (ℕ × ℚ) remOrder where
  trans a b c hab hbc := by
    rcases hab with h1 | ⟨h1, h1'⟩ <;> rcases hbc with h2 | ⟨h2, h2'⟩
    · exact Or.inl (lt_trans h2 h1)
    · exact Or.inl (h2 ▸ h1)
    · exact Or.inl (h1 ▸ h2)
    · exact Or.inr ⟨h1.trans h2, h1'.trans h2'⟩

/-- `raw_values = [total_integer * p for p in proportions]`. -/
def lrm_raw_values (total : ℤ) (ps : List ℚ) : List ℚ :=
  ps.map (fun p => (total : ℚ) * p)

/-- `int_parts = [floor(v) for v in raw_values]`. -/
def lrm_int_parts (total : ℤ) (ps : List ℚ) : List ℤ :=
  (lrm_raw_values total ps).map (fun v => ⌊v⌋)

/-- `remainders = [v - i for v, i in zip(raw_values, int_parts)]`. -/
def lrm_remainders (total : ℤ) (ps : List ℚ) : List ℚ :=
  List.zipWith (fun (v : ℚ) (i : ℤ) => v - (i : ℚ)) (lrm_raw_values total ps)
    (lrm_int_parts total ps)

/-- `indexed_remainders = sorted(enumerate(remainders), key=lambda x: x[1],
reverse=True)` — a stable descending sort, realised by `insertionSort`
under `remOrder` (see `remOrder`). -/
def lrm_indexed_remainders (total : ℤ) (ps : List ℚ) : List (ℕ × ℚ) :=
  List.insertionSort remOrder (lrm_remainders total ps).enum

/-- `largest_remainder_method(total_integer, proportions)` from
`src/calc.py`.  Raises (`.error`) on a negative total; the loop
`for i in range(leftover): index, _ = indexed_remainders[i]; int_parts[index] += 1`
raises `IndexError` exactly when `leftover` exceeds the list length,
and otherwise adds one at the index of each of the first `leftover`
sorted pairs. -/
def largest_remainder_method (total_integer : ℤ) (proportions : List ℚ) :
    Except String (List ℤ) :=
  if total_integer < 0 then
    .error "Total integer must be non-negative."
  else
    let int_parts := lrm_int_parts total_integer proportions
    let leftover := total_integer - int_parts.sum
    let indexed_remainders := lrm_indexed_remainders total_integer proportions
    if leftover.toNat ≤ indexed_remainders.length then
      .ok (List.foldl (fun acc pr => addOneAt acc pr.1) int_parts
            (indexed_remainders.take leftover.toNat))
    else
      .error "IndexError: list index out of range"

/-- A shipment record: the dictionaries produced by `predict_single_house`
and `adjust_to_shipping_days` (`date` is the proleptic-Gregorian ordinal). -/
structure SRecord where
  date : ℤ
  producer : String
  house_name : String
  variety : String
  color : String
  shape : String
  boxes : ℤ
deriving DecidableEq, Repr

/-- The default 14-day `distribution_ratio` of `predict_single_house`. -/
def default_ratio_14 : List ℚ :=
  [0.0314, 0.0952, 0.1404, 0.1543, 0.1442, 0.1218, 0.0958,
   0.0716, 0.0515, 0.0358, 0.0244, 0.0162, 0.0106, 0.0068]

/-- The normalisation step of `predict_single_house`: if the ratio sum is
outside `(0.99, 1.01)` the list is rescaled by `r / total_ratio`, which in
Python raises `ZeroDivisionError` when the sum is zero and the list is
non-empty. -/
def normalize_pattern (pattern0 : List ℚ) : Except String (List ℚ) :=
  let s := pattern0.sum
  if 99/100 < s ∧ s < 101/100 then .ok pattern0
  else if s = 0 ∧ pattern0 ≠ [] then .error "ZeroDivisionError: division by zero"
  else .ok (pattern0.map (fun r => r / s))

/-- The record-emitting loop of `predict_single_house`: one record per
daily box count, `current_date` incremented by one day each step. -/
def build_records (house_name variety color shape producer : String)
    (start : ℤ) : List ℤ → List SRecord
  | [] => []
  | b :: rest =>
      ⟨start, producer, house_name, variety, color, shape, b⟩ ::
        build_records house_name variety color shape producer (start + 1) rest

/-- `predict_single_house` from `src/calc.py`: default the ratio, normalise
it when its sum is outside the tolerance band, set
`start_date = blackout_date + days_to_start`,
`total_boxes = int(round(area_tsubo * coeff))`, distribute via
`largest_remainder_method`, and emit one record per day. -/
def predict_single_house (house_name variety : String) (area_tsubo : ℚ)
    (blackout_date : ℤ) (coeff : ℚ) (days_to_start : ℤ)
    (color shape : String) ( distribution_ratio : Option (List ℚ))
    (producer : String) : Except String (List SRecord) :=
  let ratio0 := distribution_ratio.getD default_ratio_14
  match normalize_pattern ratio0 with
  | .error e => .error e
  | .ok normalized =>
    let start_date := blackout_date + days_to_start
    let total_boxes := pyRound (area_tsubo * coeff)
    match largest_remainder_method total_boxes normalized with
    | .error e => .error e
    | .ok daily_boxes =>
        .ok (build_records house_name variety color shape producer
              start_date daily_boxes)

/-- The `shift_days` if/elif chain of `adjust_to_shipping_days`
(weekday Mon=0 .. Sun=6). -/
def shift_for_weekday (w : ℤ) : ℤ :=
  if w = 0 then 0
  else if w = 1 then 1
  else if w = 2 then 0
  else if w = 3 then 2
  else if w = 4 then 1
  else if w = 5 then 0
  else if w = 6 then 1
  else 0

/-- `new_date = original_date + timedelta(days=shift_days)`. -/
def adjDate (o : ℤ) : ℤ := o + shift_for_weekday (wd o)

/-- The merge key `(producer, house_name, variety, color, shape, date)`. -/
abbrev MKey := String × String × String × String × String × ℤ

/-- The key a record is filed under after the date shift:
`(prod, r['house_name'], r['variety'], r['color'], r['shape'], new_date)`. -/
def adjKey (r : SRecord) : MKey :=
  (r.producer, r.house_name, r.variety, r.color, r.shape, adjDate r.date)

/-- A record's own merge key (date unshifted). -/
def recKey (r : SRecord) : MKey :=
  (r.producer, r.house_name, r.variety, r.color, r.shape, r.date)

/-- One update of the insertion-ordered dict `temp_map`:
`temp_map[key] += boxes` when present, `temp_map[key] = boxes` when
absent (Python dicts preserve insertion order, so a new key appends). -/
def upsert (m : List (MKey × ℤ)) (k : MKey) (b : ℤ) : List (MKey × ℤ) :=
  match m with
  | [] => [(k, b)]
  | (k', b') :: rest =>
      if k' = k then (k', b' + b) :: rest else (k', b') :: upsert rest k b

/-- The accumulation loop of `adjust_to_shipping_days`: fold every record
into `temp_map` under its shifted key. -/
def buildMap (rs : List SRecord) : List (MKey × ℤ) :=
  rs.foldl (fun m r => upsert m (adjKey r) r.boxes) []

/-- Rebuild a record from a `temp_map` entry (the reconstruction loop). -/
def reconstruct (kb : MKey × ℤ) : SRecord :=
  ⟨kb.1.2.2.2.2.2, kb.1.1, kb.1.2.1, kb.1.2.2.1, kb.1.2.2.2.1,
   kb.1.2.2.2.2.1, kb.2⟩

/-- `adjusted_records.sort(key=lambda x: x['date'])`: the comparison used
by the final stable sort. -/
def dateLe (a b : SRecord) : Prop := a.date ≤ b.date

instance : DecidableRel dateLe := fun a b => by
  unfold dateLe; infer_instance

instance : IsTotal SRecord dateLe where
  total a b := Int.le_total a.date b.date

instance : IsTrans SRecord dateLe where
  trans _ _ _ hab hbc := le_trans hab hbc

/-- `adjust_to_shipping_days(records)` from `src/calc.py`: shift every
date to the next allowed shipping day, merge records sharing the key
`(producer, house_name, variety, color, shape, new_date)` by summing
`boxes`, rebuild the list, and sort it by date (Python's sort is stable,
matched by `insertionSort`). -/
def adjust_to_shipping_days (records : List SRecord) : List SRecord :=
  List.insertionSort dateLe ((buildMap records).map reconstruct)

/-! ### Allocator infrastructure -/

theorem addOneAt_length (l : List ℤ) (i : ℕ) :
    (addOneAt l i).length = l.length := by
  induction l generalizing i with
  | nil => rfl
  | cons x xs ih =>
    cases i with
    | zero => rfl
    | succ n => simp [addOneAt, ih]

theorem addOneAt_get? (l : List ℤ) (i j : ℕ) :
    (addOneAt l i).get? j =
      if j = i then (l.get? j).map (· + 1) else l.get? j := by
  induction l generalizing i j with
  | nil => simp [addOneAt]
  | cons x xs ih =>
    cases i with
    | zero =>
      cases j with
      | zero => simp [addOneAt]
      | succ m => simp [addOneAt]
    | succ n =>
      cases j with
      | zero => simp [addOneAt]
      | succ m => simpa [addOneAt, Nat.succ_inj] using ih n m

theorem addOneAt_sum (l : List ℤ) (i : ℕ) (h : i < l.length) :
    (addOneAt l i).sum = l.sum + 1 := by
  induction l generalizing i with
  | nil => simp at h
  | cons x xs ih =>
    cases i with
    | zero => simp [addOneAt]; ring
    | succ n =>
      have := ih n (by simpa using h)
      simp [addOneAt, this]; ring

theorem addOneAt_nonneg (l : List ℤ) (i : ℕ) (h : ∀ x ∈ l, 0 ≤ x) :
    ∀ x ∈ addOneAt l i, 0 ≤ x := by
  induction l generalizing i with
  | nil => simp [addOneAt]
  | cons y ys ih =>
    cases i with
    | zero =>
      intro x hx
      rcases List.mem_cons.mp hx with h1 | h1
      · have := h y (List.mem_cons_self y ys)
        omega
      · exact h x (List.mem_cons_of_mem y h1)
    | succ n =>
      intro x hx
      rcases List.mem_cons.mp hx with h1 | h1
      · exact h1 ▸ h y (List.mem_cons_self y ys)
      · exact ih n (fun z hz => h z (List.mem_cons_of_mem y hz)) x h1

theorem foldl_addOneAt_length (idxs : List ℕ) (l : List ℤ) :
    (List.foldl addOneAt l idxs).length = l.length := by
  induction idxs generalizing l with
  | nil => rfl
  | cons i rest ih => simp [List.foldl_cons, ih, addOneAt_length]

theorem foldl_addOneAt_sum (idxs : List ℕ) (l : List ℤ)
    (h : ∀ i ∈ idxs, i < l.length) :
    (List.foldl addOneAt l idxs).sum = l.sum + idxs.length := by
  induction idxs generalizing l with
  | nil => simp
  | cons i rest ih =>
    have hi : i < l.length := h i (List.mem_cons_self i rest)
    have hrest : ∀ j ∈ rest, j < (addOneAt l i).length := by
      intro j hj
      rw [addOneAt_length]
      exact h j (List.mem_cons_of_mem i hj)
    simp only [List.foldl_cons, ih (addOneAt l i) hrest, addOneAt_sum l i hi,
      List.length_cons]
    push_cast
    ring

theorem foldl_addOneAt_nonneg (idxs : List ℕ) (l : List ℤ)
    (h : ∀ x ∈ l, 0 ≤ x) : ∀ x ∈ List.foldl addOneAt l idxs, 0 ≤ x := by
  induction idxs generalizing l with
  | nil => simpa using h
  | cons i rest ih =>
    simpa [List.foldl_cons] using ih (addOneAt l i) (addOneAt_nonneg l i h)

theorem foldl_addOneAt_get? (idxs : List ℕ) (l : List ℤ) (j : ℕ)
    (hnd : idxs.Nodup) :
    (List.foldl addOneAt l idxs).get? j =
      (l.get? j).map (· + if j ∈ idxs then 1 else 0) := by
  induction idxs generalizing l with
  | nil =>
    simp only [List.foldl_nil]
    cases hl : l.get? j
    · rfl
    · simp
  | cons i rest ih =>
    have hnd' : rest.Nodup := (List.nodup_cons.mp hnd).2
    have hni : i ∉ rest := (List.nodup_cons.mp hnd).1
    rw [List.foldl_cons, ih (addOneAt l i) hnd', addOneAt_get? l i j]
    by_cases hji : j = i
    · subst hji
      have : j ∉ rest := hni
      cases hl : l.get? j <;> simp [hl, this]
    · cases hl : l.get? j <;>
        simp [hl, hji, List.mem_cons]

theorem sum_floor_le (l : List ℚ) :
    (((l.map (fun v => ⌊v⌋)).sum : ℤ) : ℚ) ≤ l.sum := by
  induction l with
  | nil => simp
  | cons x xs ih =>
    simp only [List.map_cons, List.sum_cons, Int.cast_add]
    have := Int.floor_le x
    linarith

theorem sum_le_floor_sum_add_length (l : List ℚ) :
    l.sum ≤ (((l.map (fun v => ⌊v⌋)).sum : ℤ) : ℚ) + l.length := by
  induction l with
  | nil => simp
  | cons x xs ih =>
    simp only [List.map_cons, List.sum_cons, List.length_cons, Int.cast_add]
    have := Int.lt_floor_add_one x
    push_cast
    push_cast at ih
    linarith

theorem sum_lt_floor_sum_add_length (l : List ℚ) (hne : l ≠ []) :
    l.sum < (((l.map (fun v => ⌊v⌋)).sum : ℤ) : ℚ) + l.length := by
  cases l with
  | nil => exact absurd rfl hne
  | cons x xs =>
    have h1 := Int.lt_floor_add_one x
    have h2 := sum_le_floor_sum_add_length xs
    simp only [List.map_cons, List.sum_cons, List.length_cons, Int.cast_add]
    push_cast
    push_cast at h2
    linarith

theorem zipWith_sub_floor (l : List ℚ) :
    List.zipWith (fun (v : ℚ) (i : ℤ) => v - (i : ℚ)) l
      (l.map (fun v => ⌊v⌋)) = l.map (fun v => v - (⌊v⌋ : ℚ)) := by
  induction l with
  | nil => rfl
  | cons x xs ih => simp [ih]

theorem lrm_remainders_eq_map (total : ℤ) (ps : List ℚ) :
    lrm_remainders total ps =
      (lrm_raw_values total ps).map (fun v => v - (⌊v⌋ : ℚ)) := by
  unfold lrm_remainders lrm_int_parts
  exact zipWith_sub_floor _

theorem sum_map_sub_floor (l : List ℚ) :
    (l.map (fun v => v - (⌊v⌋ : ℚ))).sum =
      l.sum - (((l.map (fun v => ⌊v⌋)).sum : ℤ) : ℚ) := by
  induction l with
  | nil => simp
  | cons x xs ih =>
    simp only [List.map_cons, List.sum_cons, ih]
    push_cast
    ring

theorem lrm_raw_values_sum (total : ℤ) (ps : List ℚ) :
    (lrm_raw_values total ps).sum = (total : ℚ) * ps.sum := by
  unfold lrm_raw_values
  induction ps with
  | nil => simp
  | cons p ps ih => simp [ih]; ring

theorem lrm_raw_values_length (total : ℤ) (ps : List ℚ) :
    (lrm_raw_values total ps).length = ps.length := by
  simp [lrm_raw_values]

theorem lrm_int_parts_length (total : ℤ) (ps : List ℚ) :
    (lrm_int_parts total ps).length = ps.length := by
  simp [lrm_int_parts, lrm_raw_values]

theorem lrm_remainders_length (total : ℤ) (ps : List ℚ) :
    (lrm_remainders total ps).length = ps.length := by
  rw [lrm_remainders_eq_map]
  simp [lrm_raw_values]

theorem lrm_indexed_perm (total : ℤ) (ps : List ℚ) :
    List.Perm (lrm_indexed_remainders total ps)
      (lrm_remainders total ps).enum :=
  List.perm_insertionSort remOrder _

theorem lrm_indexed_sorted (total : ℤ) (ps : List ℚ) :
    List.Sorted remOrder (lrm_indexed_remainders total ps) :=
  List.sorted_insertionSort remOrder _

theorem lrm_indexed_length (total : ℤ) (ps : List ℚ) :
    (lrm_indexed_remainders total ps).length = ps.length := by
  rw [(lrm_indexed_perm total ps).length_eq, List.enum_length,
    lrm_remainders_length]

theorem lrm_int_parts_sum_le (total : ℤ) (ps : List ℚ) (hs : ps.sum = 1) :
    (lrm_int_parts total ps).sum ≤ total := by
  have h1 := sum_floor_le (lrm_raw_values total ps)
  rw [lrm_raw_values_sum, hs, mul_one] at h1
  exact_mod_cast h1

theorem lrm_leftover_lt (total : ℤ) (ps : List ℚ) (hs : ps.sum = 1) :
    total - (lrm_int_parts total ps).sum < ps.length := by
  have hne : lrm_raw_values total ps ≠ [] := by
    intro h
    have : ps = [] := by
      have := congrArg List.length h
      simpa [lrm_raw_values] using this
    rw [this] at hs
    simp at hs
  have h2 := sum_lt_floor_sum_add_length (lrm_raw_values total ps) hne
  rw [lrm_raw_values_sum, hs, mul_one, lrm_raw_values_length] at h2
  have h3 : total < (lrm_int_parts total ps).sum + (ps.length : ℤ) := by
    exact_mod_cast h2
  omega

/-- The prefix of the sorted indexed remainders that receives a leftover
unit. -/
def lrm_taken (total : ℤ) (ps : List ℚ) : List (ℕ × ℚ) :=
  (lrm_indexed_remainders total ps).take
    (total - (lrm_int_parts total ps).sum).toNat

/-- The list `largest_remainder_method` returns on the success path. -/
def lrm_result (total : ℤ) (ps : List ℚ) : List ℤ :=
  List.foldl (fun acc pr => addOneAt acc pr.1) (lrm_int_parts total ps)
    (lrm_taken total ps)

theorem lrm_eq_ok (total : ℤ) (ps : List ℚ) (h0 : 0 ≤ total)
    (hs : ps.sum = 1) :
    largest_remainder_method total ps = .ok (lrm_result total ps) := by
  have hle := lrm_int_parts_sum_le total ps hs
  have hlt := lrm_leftover_lt total ps hs
  have hlen := lrm_indexed_length total ps
  simp only [largest_remainder_method]
  rw [if_neg (show ¬ total < 0 by omega),
    if_pos (show (total - (lrm_int_parts total ps).sum).toNat ≤
      (lrm_indexed_remainders total ps).length by omega)]
  rfl

theorem lrm_taken_idx_lt (total : ℤ) (ps : List ℚ) :
    ∀ i ∈ (lrm_taken total ps).map Prod.fst, i < ps.length := by
  intro i hi
  have hsub : List.Sublist ((lrm_taken total ps).map Prod.fst)
      ((lrm_indexed_remainders total ps).map Prod.fst) :=
    (List.take_sublist _ _).map Prod.fst
  have hperm : List.Perm ((lrm_indexed_remainders total ps).map Prod.fst)
      ((lrm_remainders total ps).enum.map Prod.fst) :=
    (lrm_indexed_perm total ps).map Prod.fst
  have : i ∈ (lrm_remainders total ps).enum.map Prod.fst :=
    hperm.mem_iff.mp (hsub.subset hi)
  rw [List.enum_map_fst, List.mem_range, lrm_remainders_length] at this
  exact this

theorem lrm_taken_idx_nodup (total : ℤ) (ps : List ℚ) :
    ((lrm_taken total ps).map Prod.fst).Nodup := by
  have hperm : List.Perm ((lrm_indexed_remainders total ps).map Prod.fst)
      ((lrm_remainders total ps).enum.map Prod.fst) :=
    (lrm_indexed_perm total ps).map Prod.fst
  have hnd : ((lrm_indexed_remainders total ps).map Prod.fst).Nodup := by
    rw [hperm.nodup_iff, List.enum_map_fst]
    exact List.nodup_range _
  exact List.Nodup.sublist ((List.take_sublist _ _).map Prod.fst) hnd

theorem lrm_taken_length (total : ℤ) (ps : List ℚ) (hs : ps.sum = 1) :
    ((lrm_taken total ps).length : ℤ) =
      total - (lrm_int_parts total ps).sum := by
  have hle := lrm_int_parts_sum_le total ps hs
  have hlt := lrm_leftover_lt total ps hs
  have hlen := lrm_indexed_length total ps
  unfold lrm_taken
  rw [List.length_take]
  omega

theorem lrm_result_eq_foldl (total : ℤ) (ps : List ℚ) :
    lrm_result total ps = List.foldl addOneAt (lrm_int_parts total ps)
      ((lrm_taken total ps).map Prod.fst) := by
  unfold lrm_result
  rw [List.foldl_map]

theorem lrm_result_length (total : ℤ) (ps : List ℚ) :
    (lrm_result total ps).length = ps.length := by
  rw [lrm_result_eq_foldl, foldl_addOneAt_length, lrm_int_parts_length]

theorem lrm_result_sum (total : ℤ) (ps : List ℚ) (hs : ps.sum = 1) :
    (lrm_result total ps).sum = total := by
  have hidx : ∀ i ∈ (lrm_taken total ps).map Prod.fst,
      i < (lrm_int_parts total ps).length := by
    intro i hi
    rw [lrm_int_parts_length]
    exact lrm_taken_idx_lt total ps i hi
  have hlen := lrm_taken_length total ps hs
  rw [lrm_result_eq_foldl, foldl_addOneAt_sum _ _ hidx, List.length_map]
  omega

theorem lrm_int_parts_nonneg (total : ℤ) (ps : List ℚ) (h0 : 0 ≤ total)
    (hnn : ∀ p ∈ ps, 0 ≤ p) : ∀ x ∈ lrm_int_parts total ps, 0 ≤ x := by
  intro x hx
  simp only [lrm_int_parts, lrm_raw_values, List.map_map, List.mem_map] at hx
  obtain ⟨p, hp, rfl⟩ := hx
  refine Int.le_floor.mpr ?_
  push_cast
  exact mul_nonneg (by exact_mod_cast h0) (hnn p hp)

theorem lrm_result_nonneg (total : ℤ) (ps : List ℚ) (h0 : 0 ≤ total)
    (hnn : ∀ p ∈ ps, 0 ≤ p) : ∀ x ∈ lrm_result total ps, 0 ≤ x := by
  rw [lrm_result_eq_foldl]
  exact foldl_addOneAt_nonneg _ _ (lrm_int_parts_nonneg total ps h0 hnn)

theorem lrm_indexed_fst_nodup (total : ℤ) (ps : List ℚ) :
    ((lrm_indexed_remainders total ps).map Prod.fst).Nodup := by
  have hperm : List.Perm ((lrm_indexed_remainders total ps).map Prod.fst)
      ((lrm_remainders total ps).enum.map Prod.fst) :=
    (lrm_indexed_perm total ps).map Prod.fst
  rw [hperm.nodup_iff, List.enum_map_fst]
  exact List.nodup_range _

theorem lrm_remainders_mem_bounds (total : ℤ) (ps : List ℚ) :
    ∀ x ∈ lrm_remainders total ps, 0 ≤ x ∧ x < 1 := by
  rw [lrm_remainders_eq_map]
  intro x hx
  rw [List.mem_map] at hx
  obtain ⟨v, _, rfl⟩ := hx
  constructor
  · have := Int.floor_le v
    linarith
  · have := Int.lt_floor_add_one v
    linarith

theorem lrm_remainders_sum (total : ℤ) (ps : List ℚ) :
    (lrm_remainders total ps).sum =
      (total : ℚ) * ps.sum - ((lrm_int_parts total ps).sum : ℚ) := by
  rw [lrm_remainders_eq_map, sum_map_sub_floor, lrm_raw_values_sum]
  rfl

theorem lrm_indexed_snd_sum (total : ℤ) (ps : List ℚ) :
    ((lrm_indexed_remainders total ps).map Prod.snd).sum =
      (lrm_remainders total ps).sum := by
  have hperm : List.Perm ((lrm_indexed_remainders total ps).map Prod.snd)
      ((lrm_remainders total ps).enum.map Prod.snd) :=
    (lrm_indexed_perm total ps).map Prod.snd
  rw [hperm.sum_eq, List.enum_map_snd]

/-- In a `remOrder`-sorted list of remainders drawn from `[0,1)` whose sum
is at least `L`, each of the first `L` entries is strictly positive: a
slot with zero remainder never receives a leftover unit. -/
theorem sorted_take_pos (L : ℕ) (s : List (ℕ × ℚ))
    (hsort : List.Sorted remOrder s)
    (hbd : ∀ x ∈ s, 0 ≤ x.2 ∧ x.2 < 1)
    (hsum : (L : ℚ) ≤ (s.map Prod.snd).sum) :
    ∀ x ∈ s.take L, 0 < x.2 := by
  induction L generalizing s with
  | zero => simp
  | succ L ih =>
    cases s with
    | nil => simp
    | cons a s =>
      have hrel : ∀ x ∈ s, remOrder a x := (List.pairwise_cons.mp hsort).1
      have hsort' : List.Sorted remOrder s := (List.pairwise_cons.mp hsort).2
      have hbd' : ∀ x ∈ s, 0 ≤ x.2 ∧ x.2 < 1 :=
        fun x hx => hbd x (List.mem_cons_of_mem a hx)
      have hba := hbd a (List.mem_cons_self a s)
      have hsum' : ((a, s) : (ℕ × ℚ) × List (ℕ × ℚ)).1.2 +
          (s.map Prod.snd).sum = ((a :: s).map Prod.snd).sum := by
        simp
      have hapos : 0 < a.2 := by
        by_contra hle
        push_neg at hle
        have ha0 : a.2 = 0 := le_antisymm hle hba.1
        have hz : ∀ y ∈ s.map Prod.snd, y = 0 := by
          intro y hy
          rw [List.mem_map] at hy
          obtain ⟨x, hx, rfl⟩ := hy
          rcases hrel x hx with h | ⟨h, _⟩
          · have := (hbd' x hx).1
            linarith [ha0 ▸ h]
          · linarith [ha0 ▸ h.symm]
        have : ((a :: s).map Prod.snd).sum = 0 := by
          rw [List.map_cons, List.sum_cons, ha0, List.sum_eq_zero hz]
          ring
        rw [this] at hsum
        have : (1 : ℚ) ≤ 0 := by
          have hnat : (1 : ℚ) ≤ ((L + 1 : ℕ) : ℚ) := by
            push_cast
            linarith [Nat.cast_nonneg (α := ℚ) L]
          linarith
        linarith
      intro x hx
      rw [List.take_succ_cons, List.mem_cons] at hx
      rcases hx with rfl | hx
      · exact hapos
      · refine ih s hsort' hbd' ?_ x hx
        have hsums : ((a :: s).map Prod.snd).sum = a.2 + (s.map Prod.snd).sum := by
          simp
        rw [hsums] at hsum
        push_cast at hsum
        linarith [hba.2]

/-- An index that receives a leftover unit has strictly positive
fractional remainder. -/
theorem lrm_assigned_remainder_pos (total : ℤ) (ps : List ℚ)
    (hs : ps.sum = 1) (i : ℕ)
    (hi : i ∈ (lrm_taken total ps).map Prod.fst) :
    ∃ r, (lrm_remainders total ps).get? i = some r ∧ 0 < r := by
  rw [List.mem_map] at hi
  obtain ⟨pr, hpr, rfl⟩ := hi
  have hmem : pr ∈ lrm_indexed_remainders total ps :=
    (List.take_sublist _ _).subset hpr
  have hbd : ∀ x ∈ lrm_indexed_remainders total ps, 0 ≤ x.2 ∧ x.2 < 1 := by
    intro x hx
    have : x ∈ (lrm_remainders total ps).enum :=
      (lrm_indexed_perm total ps).subset hx
    have hx2 : x.2 ∈ lrm_remainders total ps := by
      have := List.mem_map_of_mem Prod.snd this
      rwa [List.enum_map_snd] at this
    exact lrm_remainders_mem_bounds total ps x.2 hx2
  have hle := lrm_int_parts_sum_le total ps hs
  have hsum : (((total - (lrm_int_parts total ps).sum).toNat : ℕ) : ℚ) ≤
      ((lrm_indexed_remainders total ps).map Prod.snd).sum := by
    rw [lrm_indexed_snd_sum, lrm_remainders_sum, hs, mul_one]
    have h1 : ((total - (lrm_int_parts total ps).sum).toNat : ℤ) =
        total - (lrm_int_parts total ps).sum := Int.toNat_of_nonneg (by omega)
    have h2 : (((total - (lrm_int_parts total ps).sum).toNat : ℕ) : ℚ) =
        ((total - (lrm_int_parts total ps).sum : ℤ) : ℚ) := by
      exact_mod_cast h1
    rw [h2, Int.cast_sub]
  have hpos := sorted_take_pos _ _ (lrm_indexed_sorted total ps) hbd hsum pr hpr
  have hget : (lrm_remainders total ps).get? pr.1 = some pr.2 := by
    have hen : pr ∈ (lrm_remainders total ps).enum :=
      (lrm_indexed_perm total ps).subset hmem
    rw [List.get?_eq_getElem?]
    exact List.mem_enum_iff_getElem?.mp hen
  exact ⟨pr.2, hget, hpos⟩

theorem lrm_result_get? (total : ℤ) (ps : List ℚ) (j : ℕ) :
    (lrm_result total ps).get? j = ((lrm_int_parts total ps).get? j).map
      (· + if j ∈ (lrm_taken total ps).map Prod.fst then 1 else 0) := by
  rw [lrm_result_eq_foldl]
  exact foldl_addOneAt_get? _ _ j (lrm_taken_idx_nodup total ps)

/-- **C1**: for every non-negative integer total and every sequence of
non-negative proportions summing to 1, `largest_remainder_method` succeeds
and returns a sequence of non-negative integers of the same length as the
proportions whose sum equals the total exactly. -/
theorem C1_lrm_conservation (total : ℤ) (ps : List ℚ) (h0 : 0 ≤ total)
    (hnn : ∀ p ∈ ps, 0 ≤ p) (hs : ps.sum = 1) :
    ∃ l, largest_remainder_method total ps = .ok l ∧
      l.length = ps.length ∧ (∀ x ∈ l, 0 ≤ x) ∧ l.sum = total :=
  ⟨lrm_result total ps, lrm_eq_ok total ps h0 hs,
    lrm_result_length total ps,
    lrm_result_nonneg total ps h0 hnn,
    lrm_result_sum total ps hs⟩

/-- Witness for C1 at the spec's known value `allocate(10, [0.33, 0.33, 0.34])`. -/
theorem C1_lrm_conservation_witness :
    ∃ l, largest_remainder_method 10 [(33:ℚ)/100, 33/100, 34/100] = .ok l ∧
      l.length = [(33:ℚ)/100, 33/100, 34/100].length ∧
      (∀ x ∈ l, 0 ≤ x) ∧ l.sum = 10 :=
  C1_lrm_conservation 10 [(33:ℚ)/100, 33/100, 34/100] (by norm_num)
    (by intro p hp; fin_cases hp <;> norm_num) (by norm_num)

/-- **C4**: the leftover units are assigned to the prefix of the slot list
sorted by fractional remainder descending with ties broken by original
index ascending (the sorted list is pairwise so ordered and is a
permutation of the enumerated remainders); consequently
`largest_remainder_method(5, [0.5, 0.5]) = [3, 2]`. -/
theorem C4_tie_break :
    (∀ (total : ℤ) (ps : List ℚ),
      List.Pairwise (fun a b : ℕ × ℚ => b.2 < a.2 ∨ (a.2 = b.2 ∧ a.1 < b.1))
        (lrm_indexed_remainders total ps) ∧
      List.Perm (lrm_indexed_remainders total ps)
        (lrm_remainders total ps).enum) ∧
    largest_remainder_method 5 [1/2, 1/2] = .ok [3, 2] := by
  constructor
  · intro total ps
    refine ⟨?_, lrm_indexed_perm total ps⟩
    have hs := lrm_indexed_sorted total ps
    have hne : List.Pairwise (fun a b : ℕ × ℚ => a.1 ≠ b.1)
        (lrm_indexed_remainders total ps) :=
      (List.pairwise_map.mp (lrm_indexed_fst_nodup total ps))
    have hand := List.Pairwise.and hs hne
    refine hand.imp ?_
    rintro a b ⟨hr, hne'⟩
    rcases hr with h | ⟨h1, h2⟩
    · exact Or.inl h
    · exact Or.inr ⟨h1, lt_of_le_of_ne h2 hne'⟩
  · norm_num [largest_remainder_method, lrm_indexed_remainders, lrm_remainders,
      lrm_int_parts, lrm_raw_values, List.insertionSort, List.orderedInsert,
      remOrder, addOneAt, List.enum, List.enumFrom]

/-- **C5**: each allocated slot differs from its ideal real share
`total * proportions[i]` by strictly less than one unit. -/
theorem C5_boundedness (total : ℤ) (ps : List ℚ) (l : List ℤ)
    (h0 : 0 ≤ total) (hnn : ∀ p ∈ ps, 0 ≤ p) (hs : ps.sum = 1)
    (hok : largest_remainder_method total ps = .ok l)
    (i : ℕ) (hip : i < ps.length) (hil : i < l.length) :
    |((l.get ⟨i, hil⟩ : ℤ) : ℚ) - (total : ℚ) * ps.get ⟨i, hip⟩| < 1 := by
  have heq := lrm_eq_ok total ps h0 hs
  rw [heq, Except.ok.injEq] at hok
  subst hok
  set v : ℚ := (total : ℚ) * ps.get ⟨i, hip⟩ with hv
  have hraw : (lrm_raw_values total ps).get? i = some v := by
    rw [lrm_raw_values, List.get?_map, List.get?_eq_get hip]
    rfl
  have hints : (lrm_int_parts total ps).get? i = some ⌊v⌋ := by
    rw [lrm_int_parts, List.get?_map, hraw]
    rfl
  have hres := lrm_result_get? total ps i
  rw [hints, List.get?_eq_get hil, Option.map_some'] at hres
  have hval := Option.some.inj hres
  by_cases hmem : i ∈ (lrm_taken total ps).map Prod.fst
  · obtain ⟨r, hr, hrpos⟩ := lrm_assigned_remainder_pos total ps hs i hmem
    have hrem : (lrm_remainders total ps).get? i = some (v - (⌊v⌋ : ℚ)) := by
      rw [lrm_remainders_eq_map, List.get?_map, hraw]
      rfl
    rw [hrem] at hr
    have hrv : r = v - (⌊v⌋ : ℚ) := by
      injection hr with h
      exact h.symm
    subst hrv
    rw [if_pos hmem] at hval
    rw [hval]
    have hub := Int.lt_floor_add_one v
    rw [abs_lt]
    constructor
    · push_cast
      linarith
    · push_cast
      linarith
  · rw [if_neg hmem] at hval
    rw [hval]
    have hlb := Int.floor_le v
    have hub := Int.lt_floor_add_one v
    rw [abs_lt]
    constructor
    · push_cast
      linarith
    · push_cast
      linarith

/-- Witness for C5 at `total = 10`, `proportions = [0.33, 0.33, 0.34]`,
slot 2. -/
theorem C5_boundedness_witness :
    |((([3, 3, 4] : List ℤ).get ⟨2, by norm_num⟩ : ℤ) : ℚ) -
      (10 : ℚ) * ([(33:ℚ)/100, 33/100, 34/100].get ⟨2, by norm_num⟩)| < 1 :=
  C5_boundedness 10 [(33:ℚ)/100, 33/100, 34/100] [3, 3, 4] (by norm_num)
    (by intro p hp; fin_cases hp <;> norm_num) (by norm_num)
    (by norm_num [largest_remainder_method, lrm_indexed_remainders,
      lrm_remainders, lrm_int_parts, lrm_raw_values, List.insertionSort,
      List.orderedInsert, remOrder, addOneAt, List.enum, List.enumFrom])
    2 (by norm_num) (by norm_num)

/-! ### Calendar adjuster infrastructure -/

theorem recKey_reconstruct (kb : MKey × ℤ) : recKey (reconstruct kb) = kb.1 := rfl

theorem boxes_reconstruct (kb : MKey × ℤ) : (reconstruct kb).boxes = kb.2 := rfl

theorem reconstruct_recKey (r : SRecord) : reconstruct (recKey r, r.boxes) = r := by
  cases r
  rfl

theorem wd_lt (o : ℤ) : 0 ≤ wd o ∧ wd o < 7 := by
  unfold wd
  omega

theorem wd_cases (o : ℤ) : wd o = 0 ∨ wd o = 1 ∨ wd o = 2 ∨ wd o = 3 ∨
    wd o = 4 ∨ wd o = 5 ∨ wd o = 6 := by
  unfold wd
  omega

theorem wd_adjDate_mem (o : ℤ) :
    wd (adjDate o) = 0 ∨ wd (adjDate o) = 2 ∨ wd (adjDate o) = 5 := by
  unfold adjDate shift_for_weekday
  rcases wd_cases o with h | h | h | h | h | h | h <;>
    rw [h] <;> norm_num <;> unfold wd at h ⊢ <;> omega

theorem adjDate_fixed (o : ℤ)
    (h : wd o = 0 ∨ wd o = 2 ∨ wd o = 5) : adjDate o = o := by
  unfold adjDate shift_for_weekday
  rcases h with h | h | h <;> rw [h] <;> norm_num

theorem adjKey_eq_recKey_iff (r : SRecord) :
    adjKey r = recKey r ↔ adjDate r.date = r.date := by
  unfold adjKey recKey
  simp [Prod.ext_iff]

theorem upsert_keys (m : List (MKey × ℤ)) (k : MKey) (b : ℤ) :
    (upsert m k b).map Prod.fst =
      if k ∈ m.map Prod.fst then m.map Prod.fst
      else m.map Prod.fst ++ [k] := by
  induction m with
  | nil => simp [upsert]
  | cons kb rest ih =>
    obtain ⟨k', b'⟩ := kb
    by_cases hk : k' = k
    · subst hk
      simp [upsert, List.mem_cons]
    · simp only [upsert, if_neg hk, List.map_cons, ih]
      by_cases hmem : k ∈ rest.map Prod.fst
      · rw [if_pos hmem, if_pos (List.mem_cons_of_mem _ hmem)]
      · rw [if_neg hmem, if_neg ?_, List.cons_append]
        intro hc
        rcases List.mem_cons.mp hc with hc | hc
        · exact hk hc.symm
        · exact hmem hc

theorem upsert_keys_mem (m : List (MKey × ℤ)) (k : MKey) (b : ℤ) (k' : MKey) :
    k' ∈ (upsert m k b).map Prod.fst ↔ k' ∈ m.map Prod.fst ∨ k' = k := by
  rw [upsert_keys]
  by_cases hmem : k ∈ m.map Prod.fst
  · rw [if_pos hmem]
    constructor
    · exact Or.inl
    · rintro (h | rfl)
      · exact h
      · exact hmem
  · rw [if_neg hmem, List.mem_append, List.mem_singleton]

theorem upsert_keys_nodup (m : List (MKey × ℤ)) (k : MKey) (b : ℤ)
    (hm : (m.map Prod.fst).Nodup) : ((upsert m k b).map Prod.fst).Nodup := by
  rw [upsert_keys]
  by_cases hmem : k ∈ m.map Prod.fst
  · rw [if_pos hmem]
    exact hm
  · rw [if_neg hmem]
    refine List.Nodup.append hm (List.nodup_singleton k) ?_
    intro x hx hx'
    rw [List.mem_singleton] at hx'
    exact hmem (hx' ▸ hx)

theorem upsert_not_mem (m : List (MKey × ℤ)) (k : MKey) (b : ℤ)
    (h : k ∉ m.map Prod.fst) : upsert m k b = m ++ [(k, b)] := by
  induction m with
  | nil => rfl
  | cons kb rest ih =>
    obtain ⟨k', b'⟩ := kb
    have hk : k' ≠ k := by
      intro hc
      exact h (by simp [hc])
    simp only [upsert, if_neg hk, List.cons_append, List.cons.injEq, true_and]
    exact ih (fun hc => h (by simp [hc]))

theorem upsert_snd_sum (m : List (MKey × ℤ)) (k : MKey) (b : ℤ) :
    ((upsert m k b).map Prod.snd).sum = (m.map Prod.snd).sum + b := by
  induction m with
  | nil => simp [upsert]
  | cons kb rest ih =>
    obtain ⟨k', b'⟩ := kb
    by_cases hk : k' = k
    · subst hk
      simp [upsert]
      ring
    · simp [upsert, if_neg hk, ih]
      ring

theorem buildMapAux_keys_mem (rs : List SRecord) (m : List (MKey × ℤ))
    (k : MKey) :
    k ∈ ((rs.foldl (fun m r => upsert m (adjKey r) r.boxes) m).map
        Prod.fst) ↔
      k ∈ m.map Prod.fst ∨ ∃ r ∈ rs, adjKey r = k := by
  induction rs generalizing m with
  | nil => simp
  | cons r rest ih =>
    rw [List.foldl_cons, ih, upsert_keys_mem]
    constructor
    · rintro ((h | rfl) | ⟨r', hr', rfl⟩)
      · exact Or.inl h
      · exact Or.inr ⟨r, List.mem_cons_self r rest, rfl⟩
      · exact Or.inr ⟨r', List.mem_cons_of_mem r hr', rfl⟩
    · rintro (h | ⟨r', hr', rfl⟩)
      · exact Or.inl (Or.inl h)
      · rcases List.mem_cons.mp hr' with rfl | hr'
        · exact Or.inl (Or.inr rfl)
        · exact Or.inr ⟨r', hr', rfl⟩

theorem buildMapAux_keys_nodup (rs : List SRecord) (m : List (MKey × ℤ))
    (hm : (m.map Prod.fst).Nodup) :
    ((rs.foldl (fun m r => upsert m (adjKey r) r.boxes) m).map
      Prod.fst).Nodup := by
  induction rs generalizing m with
  | nil => exact hm
  | cons r rest ih =>
    rw [List.foldl_cons]
    exact ih _ (upsert_keys_nodup m (adjKey r) r.boxes hm)

theorem buildMap_keys_mem (rs : List SRecord) (k : MKey) :
    k ∈ ((buildMap rs).map Prod.fst) ↔ ∃ r ∈ rs, adjKey r = k := by
  unfold buildMap
  rw [buildMapAux_keys_mem]
  simp

theorem buildMap_keys_nodup (rs : List SRecord) :
    ((buildMap rs).map Prod.fst).Nodup :=
  buildMapAux_keys_nodup rs [] (by simp)

theorem buildMapAux_snd_sum (rs : List SRecord) (m : List (MKey × ℤ)) :
    ((rs.foldl (fun m r => upsert m (adjKey r) r.boxes) m).map
        Prod.snd).sum =
      (m.map Prod.snd).sum + (rs.map SRecord.boxes).sum := by
  induction rs generalizing m with
  | nil => simp
  | cons r rest ih =>
    rw [List.foldl_cons, ih, upsert_snd_sum]
    simp
    ring

theorem adjust_mem_reconstruct (rs : List SRecord) (r' : SRecord)
    (h : r' ∈ adjust_to_shipping_days rs) :
    ∃ kb ∈ buildMap rs, r' = reconstruct kb := by
  unfold adjust_to_shipping_days at h
  have := (List.perm_insertionSort dateLe _).subset h
  rw [List.mem_map] at this
  obtain ⟨kb, hkb, rfl⟩ := this
  exact ⟨kb, hkb, rfl⟩

theorem adjust_mem_date (rs : List SRecord) (r' : SRecord)
    (h : r' ∈ adjust_to_shipping_days rs) :
    ∃ r ∈ rs, r'.date = adjDate r.date := by
  obtain ⟨kb, hkb, rfl⟩ := adjust_mem_reconstruct rs r' h
  have hk : kb.1 ∈ (buildMap rs).map Prod.fst := List.mem_map_of_mem _ hkb
  rw [buildMap_keys_mem] at hk
  obtain ⟨r, hr, hkey⟩ := hk
  refine ⟨r, hr, ?_⟩
  have := congrArg (fun k : MKey => k.2.2.2.2.2) hkey
  simpa [adjKey, reconstruct] using this.symm

theorem adjust_dates_allowed (rs : List SRecord) :
    ∀ r' ∈ adjust_to_shipping_days rs,
      wd r'.date = 0 ∨ wd r'.date = 2 ∨ wd r'.date = 5 := by
  intro r' h
  obtain ⟨r, _, hdate⟩ := adjust_mem_date rs r' h
  rw [hdate]
  exact wd_adjDate_mem r.date

theorem adjust_sorted (rs : List SRecord) :
    List.Sorted dateLe (adjust_to_shipping_days rs) :=
  List.sorted_insertionSort dateLe _

theorem adjust_recKey_nodup (rs : List SRecord) :
    ((adjust_to_shipping_days rs).map recKey).Nodup := by
  unfold adjust_to_shipping_days
  have hperm : List.Perm
      ((List.insertionSort dateLe ((buildMap rs).map reconstruct)).map recKey)
      (((buildMap rs).map reconstruct).map recKey) :=
    (List.perm_insertionSort dateLe _).map recKey
  rw [hperm.nodup_iff, List.map_map]
  have : (recKey ∘ reconstruct) = Prod.fst := funext recKey_reconstruct
  rw [this]
  exact buildMap_keys_nodup rs

theorem buildMapAux_nodup_eq (rs : List SRecord) (m : List (MKey × ℤ))
    (hadj : ∀ r ∈ rs, adjKey r = recKey r)
    (hnd : (m.map Prod.fst ++ rs.map recKey).Nodup) :
    rs.foldl (fun m r => upsert m (adjKey r) r.boxes) m =
      m ++ rs.map (fun r => (recKey r, r.boxes)) := by
  induction rs generalizing m with
  | nil => simp
  | cons r rest ih =>
    rw [List.foldl_cons]
    have hk : adjKey r = recKey r := hadj r (List.mem_cons_self r rest)
    have hknot : recKey r ∉ m.map Prod.fst := by
      intro hc
      have := (List.nodup_append.mp hnd).2.2
      exact this hc (by simp)
    rw [hk, upsert_not_mem m (recKey r) r.boxes hknot]
    rw [ih (m ++ [(recKey r, r.boxes)])
      (fun r' hr' => hadj r' (List.mem_cons_of_mem r hr')) ?_]
    · simp
    · have hgoal : (m ++ [(recKey r, r.boxes)]).map Prod.fst ++
          rest.map recKey = m.map Prod.fst ++
          (recKey r :: rest.map recKey) := by
        simp
      rw [hgoal]
      simpa using hnd

/-- **C8**: the calendar adjuster is idempotent — applying it to its own
output returns the output unchanged (hence also equal as a multiset keyed
by the merge key). -/
theorem C8_adjust_idempotent (rs : List SRecord) :
    adjust_to_shipping_days (adjust_to_shipping_days rs) =
      adjust_to_shipping_days rs := by
  have h1 : ∀ r ∈ adjust_to_shipping_days rs, adjKey r = recKey r := by
    intro r hr
    rw [adjKey_eq_recKey_iff]
    exact adjDate_fixed r.date (adjust_dates_allowed rs r hr)
  have h2 := adjust_recKey_nodup rs
  have h3 : buildMap (adjust_to_shipping_days rs) =
      (adjust_to_shipping_days rs).map (fun r => (recKey r, r.boxes)) := by
    unfold buildMap
    rw [buildMapAux_nodup_eq _ [] h1 (by simpa using h2)]
    simp
  show List.insertionSort dateLe
    ((buildMap (adjust_to_shipping_days rs)).map reconstruct) =
      adjust_to_shipping_days rs
  rw [h3, List.map_map]
  have h4 : (reconstruct ∘ fun r => (recKey r, r.boxes)) = id :=
    funext (fun r => reconstruct_recKey r)
  rw [h4, List.map_id]
  exact (adjust_sorted rs).insertionSort_eq

/-- **C3**: every output record of `adjust_to_shipping_days` falls on a
Monday, Wednesday, or Saturday, and each date is shifted forward exactly
per the fixed table Mon +0, Tue +1 (to Wed), Wed +0, Thu +2 (to Sat),
Fri +1 (to Sat), Sat +0, Sun +1 (to the next calendar day, a Monday). -/
theorem C3_weekday_remap :
    (∀ (rs : List SRecord) (r' : SRecord), r' ∈ adjust_to_shipping_days rs →
      wd r'.date = 0 ∨ wd r'.date = 2 ∨ wd r'.date = 5) ∧
    (∀ o : ℤ,
      (wd o = 0 → adjDate o = o) ∧
      (wd o = 1 → adjDate o = o + 1 ∧ wd (o + 1) = 2) ∧
      (wd o = 2 → adjDate o = o) ∧
      (wd o = 3 → adjDate o = o + 2 ∧ wd (o + 2) = 5) ∧
      (wd o = 4 → adjDate o = o + 1 ∧ wd (o + 1) = 5) ∧
      (wd o = 5 → adjDate o = o) ∧
      (wd o = 6 → adjDate o = o + 1 ∧ wd (o + 1) = 0)) := by
  constructor
  · exact adjust_dates_allowed
  · intro o
    refine ⟨?_, ?_, ?_, ?_, ?_, ?_, ?_⟩ <;> intro h <;>
      unfold adjDate shift_for_weekday <;> rw [h] <;> norm_num <;>
      unfold wd at h ⊢ <;> omega

/-- Witness for C3: a Sunday record (ordinal 738794 = 2023-10-01) moves to
the following Monday, and the shift table at that Sunday. -/
theorem C3_weekday_remap_witness :
    (wd (738795 : ℤ) = 0 ∨ wd (738795 : ℤ) = 2 ∨ wd (738795 : ℤ) = 5) ∧
    (wd (738794 : ℤ) = 6 →
      adjDate 738794 = 738794 + 1 ∧ wd (738794 + 1) = 0) := by
  constructor
  · have hmem : (⟨738795, "P", "H", "V", "", "", 3⟩ : SRecord) ∈
        adjust_to_shipping_days [⟨738794, "P", "H", "V", "", "", 3⟩] := by
      norm_num [adjust_to_shipping_days, buildMap, upsert, adjKey, adjDate,
        wd, shift_for_weekday, reconstruct, List.insertionSort,
        List.orderedInsert, dateLe]
    exact C3_weekday_remap.1 [⟨738794, "P", "H", "V", "", "", 3⟩] _ hmem
  · exact (C3_weekday_remap.2 738794).2.2.2.2.2.2

theorem upsert_sum_filter (m : List (MKey × ℤ)) (k k' : MKey) (b : ℤ) :
    (((upsert m k' b).filter (fun kb => kb.1 = k)).map Prod.snd).sum =
      ((m.filter (fun kb => kb.1 = k)).map Prod.snd).sum +
        (if k' = k then b else 0) := by
  induction m with
  | nil =>
    by_cases hk : k' = k <;> simp [upsert, List.filter, hk]
  | cons kb rest ih =>
    obtain ⟨k₀, b₀⟩ := kb
    by_cases h0 : k₀ = k'
    · by_cases hk : k₀ = k
      · have hk' : k' = k := h0 ▸ hk
        simp [upsert, h0, List.filter_cons, hk, hk']
        ring
      · have hk' : ¬ k' = k := fun hc => hk (h0.trans hc)
        simp [upsert, h0, List.filter_cons, hk, hk']
    · by_cases hk : k₀ = k
      · have h1 : ¬ k = k' := fun hc => h0 (hk.trans hc)
        have h2 : ¬ k' = k := fun hc => h1 hc.symm
        simp [upsert, h0, List.filter_cons, hk, ih, h1, h2]
      · simp [upsert, h0, List.filter_cons, hk, ih]

theorem nodup_filter_length (m : List (MKey × ℤ)) (k : MKey)
    (hnd : (m.map Prod.fst).Nodup) :
    (m.filter (fun kb => kb.1 = k)).length =
      if k ∈ m.map Prod.fst then 1 else 0 := by
  induction m with
  | nil => simp
  | cons kb rest ih =>
    obtain ⟨k₀, b₀⟩ := kb
    simp only [List.map_cons, List.nodup_cons] at hnd
    obtain ⟨hnotin, hnd'⟩ := hnd
    by_cases hk : k₀ = k
    · subst hk
      simp [List.filter_cons, ih hnd', hnotin]
    · have hk2 : ¬ k = k₀ := fun hc => hk hc.symm
      simp only [List.filter_cons, List.map_cons, List.mem_cons, hk2,
        false_or, decide_eq_true_eq, hk, if_false]
      exact ih hnd'

theorem buildMapAux_sum_filter (rs : List SRecord) (m : List (MKey × ℤ))
    (k : MKey) :
    (((rs.foldl (fun m r => upsert m (adjKey r) r.boxes) m).filter
        (fun kb => kb.1 = k)).map Prod.snd).sum =
      ((m.filter (fun kb => kb.1 = k)).map Prod.snd).sum +
        ((rs.filter (fun r => adjKey r = k)).map SRecord.boxes).sum := by
  induction rs generalizing m with
  | nil => simp
  | cons r rest ih =>
    rw [List.foldl_cons, ih, upsert_sum_filter]
    by_cases hk : adjKey r = k
    · simp only [List.filter_cons, hk, decide_True, if_pos, List.map_cons,
        List.sum_cons, if_true]
      omega
    · simp [List.filter_cons, hk]

theorem adjust_filter_eq (rs : List SRecord) (k : MKey) :
    List.Perm ((adjust_to_shipping_days rs).filter (fun r => recKey r = k))
      (((buildMap rs).filter (fun kb => kb.1 = k)).map reconstruct) := by
  unfold adjust_to_shipping_days
  have h1 : List.Perm
      ((List.insertionSort dateLe
        ((buildMap rs).map reconstruct)).filter (fun r => recKey r = k))
      (((buildMap rs).map reconstruct).filter (fun r => recKey r = k)) :=
    (List.perm_insertionSort dateLe _).filter _
  refine h1.trans ?_
  have h2 : ((buildMap rs).map reconstruct).filter (fun r => recKey r = k) =
      ((buildMap rs).filter (fun kb => kb.1 = k)).map reconstruct := by
    rw [List.filter_map]
    rfl
  rw [h2]

theorem adjust_sum_filter (rs : List SRecord) (k : MKey) :
    (((adjust_to_shipping_days rs).filter
        (fun r => recKey r = k)).map SRecord.boxes).sum =
      ((rs.filter (fun r => adjKey r = k)).map SRecord.boxes).sum := by
  have hp := ((adjust_filter_eq rs k).map SRecord.boxes).sum_eq
  rw [hp, List.map_map]
  have hc : (SRecord.boxes ∘ reconstruct) = Prod.snd := funext boxes_reconstruct
  rw [hc]
  have hb := buildMapAux_sum_filter rs [] k
  simpa [buildMap] using hb

theorem adjust_filter_length (rs : List SRecord) (k : MKey) :
    ((adjust_to_shipping_days rs).filter (fun r => recKey r = k)).length =
      if ∃ r ∈ rs, adjKey r = k then 1 else 0 := by
  rw [(adjust_filter_eq rs k).length_eq, List.length_map,
    nodup_filter_length _ _ (buildMap_keys_nodup rs)]
  by_cases h : ∃ r ∈ rs, adjKey r = k
  · rw [if_pos ((buildMap_keys_mem rs k).mpr h), if_pos h]
  · rw [if_neg (fun hc => h ((buildMap_keys_mem rs k).mp hc)), if_neg h]

theorem adjust_boxes_sum (rs : List SRecord) :
    ((adjust_to_shipping_days rs).map SRecord.boxes).sum =
      (rs.map SRecord.boxes).sum := by
  unfold adjust_to_shipping_days
  have hp : List.Perm
      ((List.insertionSort dateLe
        ((buildMap rs).map reconstruct)).map SRecord.boxes)
      (((buildMap rs).map reconstruct).map SRecord.boxes) :=
    (List.perm_insertionSort dateLe _).map _
  rw [hp.sum_eq, List.map_map]
  have hc : (SRecord.boxes ∘ reconstruct) = Prod.snd := funext boxes_reconstruct
  rw [hc]
  have hb := buildMapAux_snd_sum rs []
  simpa [buildMap] using hb

/-- **C7**: after adjustment no two records share the merge key
`(producer, house_name, variety, color, shape, date)`; for every key the
output carries the summed boxes of all inputs remapped to it, in exactly
one record when any input maps to it; the output is sorted ascending by
date; and two identically-attributed records dated Thursday (ordinal 4)
and Friday (ordinal 5) of the same week merge into a single Saturday
(ordinal 6) record with summed boxes. -/
theorem C7_merge_key (rs : List SRecord) (k : MKey) :
    ((adjust_to_shipping_days rs).map recKey).Nodup ∧
    List.Sorted dateLe (adjust_to_shipping_days rs) ∧
    (((adjust_to_shipping_days rs).filter
        (fun r => recKey r = k)).map SRecord.boxes).sum =
      ((rs.filter (fun r => adjKey r = k)).map SRecord.boxes).sum ∧
    ((adjust_to_shipping_days rs).filter (fun r => recKey r = k)).length =
      (if ∃ r ∈ rs, adjKey r = k then 1 else 0) ∧
    (wd 4 = 3 ∧ wd 5 = 4 ∧ wd 6 = 5 ∧
      adjust_to_shipping_days
        [⟨4, "P", "H", "V", "C", "S", 3⟩, ⟨5, "P", "H", "V", "C", "S", 4⟩] =
        [⟨6, "P", "H", "V", "C", "S", 7⟩]) :=
  ⟨adjust_recKey_nodup rs, adjust_sorted rs, adjust_sum_filter rs k,
    adjust_filter_length rs k, by norm_num [wd], by norm_num [wd],
    by norm_num [wd],
    by norm_num [adjust_to_shipping_days, buildMap, upsert, adjKey, adjDate,
      wd, shift_for_weekday, reconstruct, List.insertionSort,
      List.orderedInsert, dateLe]⟩

/-! ### Shipment generator infrastructure -/

theorem build_records_boxes (hn v c s p : String) (start : ℤ) (bs : List ℤ) :
    (build_records hn v c s p start bs).map SRecord.boxes = bs := by
  induction bs generalizing start with
  | nil => rfl
  | cons b rest ih => simp [build_records, ih]

theorem build_records_length (hn v c s p : String) (start : ℤ)
    (bs : List ℤ) :
    (build_records hn v c s p start bs).length = bs.length := by
  induction bs generalizing start with
  | nil => rfl
  | cons b rest ih => simp [build_records, ih]

theorem build_records_get? (hn v c s p : String) (start : ℤ) (bs : List ℤ)
    (i : ℕ) :
    (build_records hn v c s p start bs).get? i =
      (bs.get? i).map (fun b => ⟨start + i, p, hn, v, c, s, b⟩) := by
  induction bs generalizing start i with
  | nil => simp [build_records]
  | cons b rest ih =>
    cases i with
    | zero => simp [build_records]
    | succ n =>
      have hstep : (build_records hn v c s p start (b :: rest)).get? (n + 1) =
          (build_records hn v c s p (start + 1) rest).get? n := rfl
      cases h : rest.get? n with
      | none =>
        rw [hstep, ih (start + 1) n, h, List.get?_cons_succ, h]
        rfl
      | some x =>
        rw [hstep, ih (start + 1) n, h, List.get?_cons_succ, h]
        simp only [Option.map_some', Option.some.injEq, SRecord.mk.injEq,
          eq_self_iff_true, and_true, true_and]
        push_cast
        ring

theorem lrm_neg_error (t : ℤ) (ps : List ℚ) (h : t < 0) :
    largest_remainder_method t ps =
      .error "Total integer must be non-negative." := by
  unfold largest_remainder_method
  rw [if_pos h]

theorem lrm_ok_length (t : ℤ) (ps : List ℚ) (l : List ℤ)
    (h : largest_remainder_method t ps = .ok l) : l.length = ps.length := by
  simp only [largest_remainder_method] at h
  split_ifs at h
  · injection h with h
    rw [← h, ← List.foldl_map, foldl_addOneAt_length, lrm_int_parts_length]

theorem normalize_pattern_length (q q' : List ℚ)
    (h : normalize_pattern q = .ok q') : q'.length = q.length := by
  simp only [normalize_pattern] at h
  split_ifs at h
  · injection h with h
    rw [← h]
  · injection h with h
    rw [← h]
    simp

theorem sum_map_div (l : List ℚ) (s : ℚ) :
    (l.map (fun r => r / s)).sum = l.sum / s := by
  induction l with
  | nil => simp
  | cons x xs ih => simp [ih, add_div]

theorem normalize_pattern_ok_of (q : List ℚ) (hnn : ∀ p ∈ q, 0 ≤ p)
    (hband : q.sum = 1 ∨
      (¬(99/100 < q.sum ∧ q.sum < 101/100) ∧ 0 < q.sum)) :
    ∃ q', normalize_pattern q = .ok q' ∧ q'.sum = 1 ∧
      (∀ p ∈ q', 0 ≤ p) ∧ q'.length = q.length := by
  rcases hband with hs | ⟨hout, hpos⟩
  · refine ⟨q, ?_, hs, hnn, rfl⟩
    unfold normalize_pattern
    rw [if_pos]
    rw [hs]
    norm_num
  · refine ⟨q.map (fun r => r / q.sum), ?_, ?_, ?_, by simp⟩
    · unfold normalize_pattern
      rw [if_neg hout, if_neg]
      rintro ⟨h0, -⟩
      exact absurd h0 (ne_of_gt hpos)
    · rw [sum_map_div]
      exact div_self (ne_of_gt hpos)
    · intro p hp
      rw [List.mem_map] at hp
      obtain ⟨r, hr, rfl⟩ := hp
      exact div_nonneg (hnn r hr) hpos.le

theorem pyRound_nonneg (q : ℚ) (h : 0 ≤ q) : 0 ≤ pyRound q := by
  have hf : 0 ≤ ⌊q⌋ := Int.le_floor.mpr (by exact_mod_cast h)
  simp only [pyRound]
  split_ifs <;> omega

theorem predict_eq (house variety : String) (area : ℚ) (blackout : ℤ)
    (coeff : ℚ) (days : ℤ) (color shape : String) (pat : Option (List ℚ))
    (producer : String) (q' : List ℚ) (bs : List ℤ)
    (hnorm : normalize_pattern (pat.getD default_ratio_14) = .ok q')
    (hlrm : largest_remainder_method (pyRound (area * coeff)) q' = .ok bs) :
    predict_single_house house variety area blackout coeff days color shape
      pat producer =
      .ok (build_records house variety color shape producer
        (blackout + days) bs) := by
  simp only [predict_single_house, hnorm, hlrm]

theorem predict_ok_cases (house variety : String) (area : ℚ) (blackout : ℤ)
    (coeff : ℚ) (days : ℤ) (color shape : String) (pat : Option (List ℚ))
    (producer : String) (rs : List SRecord)
    (hok : predict_single_house house variety area blackout coeff days color
      shape pat producer = .ok rs) :
    ∃ q' bs, normalize_pattern (pat.getD default_ratio_14) = .ok q' ∧
      largest_remainder_method (pyRound (area * coeff)) q' = .ok bs ∧
      rs = build_records house variety color shape producer
        (blackout + days) bs := by
  simp only [predict_single_house] at hok
  cases hq : normalize_pattern (pat.getD default_ratio_14) with
  | error e =>
    rw [hq] at hok
    cases hok
  | ok q' =>
    rw [hq] at hok
    have hok2 : (match largest_remainder_method (pyRound (area * coeff)) q' with
        | Except.error e => (Except.error e : Except String (List SRecord))
        | Except.ok daily_boxes =>
          Except.ok (build_records house variety color shape producer
            (blackout + days) daily_boxes)) = Except.ok rs := hok
    cases hl : largest_remainder_method (pyRound (area * coeff)) q' with
    | error e =>
      rw [hl] at hok2
      cases hok2
    | ok bs =>
      rw [hl] at hok2
      exact ⟨q', bs, rfl, hl, (Except.ok.inj hok2).symm⟩

theorem predict_error_of_neg (house variety : String) (area : ℚ)
    (blackout : ℤ) (coeff : ℚ) (days : ℤ) (color shape : String)
    (pat : Option (List ℚ)) (producer : String)
    (h : pyRound (area * coeff) < 0) :
    ∃ e, predict_single_house house variety area blackout coeff days color
      shape pat producer = .error e := by
  cases hq : normalize_pattern (pat.getD default_ratio_14) with
  | error e =>
    refine ⟨e, ?_⟩
    simp only [predict_single_house, hq]
  | ok q' =>
    refine ⟨"Total integer must be non-negative.", ?_⟩
    simp only [predict_single_house, hq, lrm_neg_error _ q' h]

/-- Counterexample to C2 as stated: the distribution pattern `[1.005]` has
non-negative entries and (being inside the `(0.99, 1.01)` tolerance band)
is used without rescaling, yet with `area = 1000`, `coeff = 1` the single
emitted record carries 1005 boxes while `round(area * coeff) = 1000`:
`leftover` is negative, the distribution loop never runs, and conservation
fails. -/
theorem C2_conservation_counterexample :
    (∀ p ∈ [(201:ℚ)/200], 0 ≤ p) ∧ (0:ℚ) ≤ 1000 ∧ (0:ℚ) < 1 ∧
    predict_single_house "H" "V" 1000 0 1 0 "" "" (some [201/200]) "" =
      .ok [⟨0, "", "H", "V", "", "", 1005⟩] ∧
    (([⟨0, "", "H", "V", "", "", 1005⟩] : List SRecord).map
      SRecord.boxes).sum = 1005 ∧
    pyRound ((1000:ℚ) * 1) = 1000 ∧ (1005 : ℤ) ≠ 1000 := by
  refine ⟨?_, by norm_num, by norm_num, ?_, by simp, ?_, by norm_num⟩
  · intro p hp
    fin_cases hp
    norm_num
  · norm_num [predict_single_house, normalize_pattern, pyRound,
      largest_remainder_method, lrm_indexed_remainders, lrm_remainders,
      lrm_int_parts, lrm_raw_values, List.insertionSort, List.orderedInsert,
      remOrder, addOneAt, List.enum, List.enumFrom, build_records]
  · norm_num [pyRound]

/-- **C2** (amended): for every house whose distribution pattern has
non-negative entries and sums to 1 after the generator's conditional
rescaling (i.e. the sum is exactly 1, or lies outside the `(0.99, 1.01)`
band and is positive), with `area ≥ 0` and `coeff > 0`, the sum of `boxes`
across the emitted records equals `round(area * coeff)`; and for every
record sequence `R`, `adjust_to_shipping_days` preserves the total box
sum. -/
theorem C2_conservation_amended (house variety : String) (area : ℚ)
    (blackout : ℤ) (coeff : ℚ) (days : ℤ) (color shape : String)
    (pat : Option (List ℚ)) (producer : String)
    (hnn : ∀ p ∈ pat.getD default_ratio_14, 0 ≤ p)
    (hband : (pat.getD default_ratio_14).sum = 1 ∨
      (¬(99/100 < (pat.getD default_ratio_14).sum ∧
         (pat.getD default_ratio_14).sum < 101/100) ∧
       0 < (pat.getD default_ratio_14).sum))
    (harea : 0 ≤ area) (hcoeff : 0 < coeff) :
    (∃ rs, predict_single_house house variety area blackout coeff days color
        shape pat producer = .ok rs ∧
      (rs.map SRecord.boxes).sum = pyRound (area * coeff)) ∧
    ∀ R : List SRecord,
      ((adjust_to_shipping_days R).map SRecord.boxes).sum =
        (R.map SRecord.boxes).sum := by
  refine ⟨?_, adjust_boxes_sum⟩
  obtain ⟨q', hnorm, hsum1, hnn', hlen⟩ :=
    normalize_pattern_ok_of _ hnn hband
  have htot : 0 ≤ pyRound (area * coeff) :=
    pyRound_nonneg _ (mul_nonneg harea hcoeff.le)
  have hok := lrm_eq_ok (pyRound (area * coeff)) q' htot hsum1
  refine ⟨_, predict_eq house variety area blackout coeff days color shape
    pat producer q' _ hnorm hok, ?_⟩
  rw [build_records_boxes]
  exact lrm_result_sum _ _ hsum1

/-- Witness for the amended C2 at `area = 100`, `coeff = 1.2`,
pattern `[0.5, 0.5]` (the spec's generator-total example: 120 boxes). -/
theorem C2_conservation_amended_witness :
    (∃ rs, predict_single_house "H1" "V1" 100 0 (6/5) 0 "" ""
        (some [(1:ℚ)/2, 1/2]) "" = .ok rs ∧
      (rs.map SRecord.boxes).sum = pyRound ((100:ℚ) * (6/5))) ∧
    ∀ R : List SRecord,
      ((adjust_to_shipping_days R).map SRecord.boxes).sum =
        (R.map SRecord.boxes).sum :=
  C2_conservation_amended "H1" "V1" 100 0 (6/5) 0 "" ""
    (some [(1:ℚ)/2, 1/2]) ""
    (by intro p hp; fin_cases hp <;> norm_num)
    (Or.inl (by norm_num)) (by norm_num) (by norm_num)

/-- **C6**: a successful `predict_single_house` call returns exactly one
record per pattern entry, with dates increasing by exactly one calendar
day from `blackout_date + days_to_start`; and 2023-10-01 + 49 days is
2023-11-19. -/
theorem C6_generator_dates (house variety : String) (area : ℚ)
    (blackout : ℤ) (coeff : ℚ) (days : ℤ) (color shape : String)
    (pat : Option (List ℚ)) (producer : String) (rs : List SRecord)
    (hok : predict_single_house house variety area blackout coeff days color
      shape pat producer = .ok rs) :
    rs.length = (pat.getD default_ratio_14).length ∧
    (∀ (i : ℕ) (hi : i < rs.length),
      (rs.get ⟨i, hi⟩).date = blackout + days + i) ∧
    toordinal 2023 10 1 + 49 = toordinal 2023 11 19 := by
  obtain ⟨q', bs, hq, hl, rfl⟩ := predict_ok_cases house variety area
    blackout coeff days color shape pat producer rs hok
  refine ⟨?_, ?_, by norm_num [toordinal, days_before_year,
    days_before_month, is_leap]⟩
  · rw [build_records_length, lrm_ok_length _ _ _ hl,
      normalize_pattern_length _ _ hq]
  · intro i hi
    have hget := build_records_get? house variety color shape producer
      (blackout + days) bs i
    rw [List.get?_eq_get hi] at hget
    have hlen : i < bs.length := by
      rw [build_records_length] at hi
      exact hi
    rw [List.get?_eq_get hlen, Option.map_some'] at hget
    have := congrArg SRecord.date (Option.some.inj hget)
    simpa using this

/-- Witness for C6: `blackout_date = 2023-10-01` (ordinal 738794),
`days_to_start = 49`, pattern `[0.5, 0.5]`: two records dated 738843
(= 2023-11-19) and 738844. -/
theorem C6_generator_dates_witness :
    ([⟨738843, "", "H1", "V1", "", "", 5⟩,
      ⟨738844, "", "H1", "V1", "", "", 5⟩] : List SRecord).length =
      ((some [(1:ℚ)/2, 1/2]).getD default_ratio_14).length ∧
    (∀ (i : ℕ) (hi : i < ([⟨738843, "", "H1", "V1", "", "", 5⟩,
        ⟨738844, "", "H1", "V1", "", "", 5⟩] : List SRecord).length),
      (([⟨738843, "", "H1", "V1", "", "", 5⟩,
        ⟨738844, "", "H1", "V1", "", "", 5⟩] : List SRecord).get
          ⟨i, hi⟩).date = toordinal 2023 10 1 + 49 + i) ∧
    toordinal 2023 10 1 + 49 = toordinal 2023 11 19 :=
  C6_generator_dates "H1" "V1" 10 (toordinal 2023 10 1) 1 49 "" ""
    (some [(1:ℚ)/2, 1/2]) ""
    [⟨738843, "", "H1", "V1", "", "", 5⟩, ⟨738844, "", "H1", "V1", "", "", 5⟩]
    (by norm_num [predict_single_house, normalize_pattern, pyRound,
      largest_remainder_method, lrm_indexed_remainders, lrm_remainders,
      lrm_int_parts, lrm_raw_values, List.insertionSort, List.orderedInsert,
      remOrder, addOneAt, List.enum, List.enumFrom, build_records,
      toordinal, days_before_year, days_before_month, is_leap])

/-- Counterexample to C9 as stated: `area = -0.1` is negative, yet with
`coeff = 1.2` the product `-0.12` rounds to `0`, `largest_remainder_method`
accepts the zero total, and `predict_single_house` returns records (with
zero boxes) instead of raising: the code has no explicit negative-area
check, only the negative-total check inside the allocator. -/
theorem C9_error_counterexample :
    ((-1:ℚ)/10 < 0) ∧
    predict_single_house "H" "V" (-1/10) 0 (6/5) 0 "" ""
        (some [(1:ℚ)/2, 1/2]) "" =
      .ok [⟨0, "", "H", "V", "", "", 0⟩, ⟨1, "", "H", "V", "", "", 0⟩] := by
  refine ⟨by norm_num, ?_⟩
  norm_num [predict_single_house, normalize_pattern, pyRound,
    largest_remainder_method, lrm_indexed_remainders, lrm_remainders,
    lrm_int_parts, lrm_raw_values, List.insertionSort, List.orderedInsert,
    remOrder, addOneAt, List.enum, List.enumFrom, build_records]

/-- **C9** (amended): `largest_remainder_method` raises on every negative
total, and `predict_single_house` raises whenever the computed
`total_boxes = round(area * coeff)` is negative — but a negative area
alone does not raise when the product rounds to a non-negative total
(see the counterexample). -/
theorem C9_error_amended :
    (∀ (t : ℤ) (ps : List ℚ), t < 0 →
      largest_remainder_method t ps =
        .error "Total integer must be non-negative.") ∧
    (∀ (house variety : String) (area : ℚ) (blackout : ℤ) (coeff : ℚ)
        (days : ℤ) (color shape : String) (pat : Option (List ℚ))
        (producer : String), pyRound (area * coeff) < 0 →
      ∃ e, predict_single_house house variety area blackout coeff days color
        shape pat producer = .error e) :=
  ⟨fun t ps h => lrm_neg_error t ps h,
   fun house variety area blackout coeff days color shape pat producer h =>
     predict_error_of_neg house variety area blackout coeff days color shape
       pat producer h⟩

/-- Witness for the amended C9: a negative total and a call whose
`round(area * coeff)` is negative both raise. -/
theorem C9_error_amended_witness :
    largest_remainder_method (-1) [] =
      .error "Total integer must be non-negative." ∧
    ∃ e, predict_single_house "H" "V" (-10) 0 (6/5) 0 "" ""
      (some [(1:ℚ)/2, 1/2]) "" = .error e :=
  ⟨C9_error_amended.1 (-1) [] (by norm_num),
   C9_error_amended.2 "H" "V" (-10) 0 (6/5) 0 "" "" (some [(1:ℚ)/2, 1/2]) ""
     (by norm_num [pyRound])⟩

/-- **C10**: `total_boxes = int(round(area * coeff))` uses
round-half-to-even: whenever the product is an integer plus exactly one
half, the result is the nearest even integer; in particular `area = 2.5`,
`coeff = 1.0` yields a single-slot prediction of 2 boxes, not 3. -/
theorem C10_banker_rounding (area coeff : ℚ) (k : ℤ)
    (h : area * coeff = (k : ℚ) + 1/2) :
    pyRound (area * coeff) = (if 2 ∣ k then k else k + 1) ∧
    predict_single_house "H" "V" (5/2) 0 1 0 "" "" (some [1]) "" =
      .ok [⟨0, "", "H", "V", "", "", 2⟩] := by
  constructor
  · rw [h]
    have hf : ⌊(k : ℚ) + 1/2⌋ = k := by
      rw [add_comm, Int.floor_add_int]
      norm_num
    simp only [pyRound, hf]
    have hr : (k : ℚ) + 1/2 - (k : ℚ) = 1/2 := by ring
    rw [hr]
    norm_num
  · norm_num [predict_single_house, normalize_pattern, pyRound,
      largest_remainder_method, lrm_indexed_remainders, lrm_remainders,
      lrm_int_parts, lrm_raw_values, List.insertionSort, List.orderedInsert,
      remOrder, addOneAt, List.enum, List.enumFrom, build_records]

/-- Witness for C10 at the half-integer product `2.5 * 1.0 = 2 + 1/2`. -/
theorem C10_banker_rounding_witness :
    pyRound ((5:ℚ)/2 * 1) = (if (2:ℤ) ∣ 2 then 2 else 2 + 1) ∧
    predict_single_house "H" "V" (5/2) 0 1 0 "" "" (some [1]) "" =
      .ok [⟨0, "", "H", "V", "", "", 2⟩] :=
  C10_banker_rounding (5/2) 1 2 (by norm_num)
